import Mathlib

/-!
Shallow embedding of `src/infra-logging.py` (normalization and analysis
pipeline for storage-index metadata), together with theorems checking the
specification's claims against the code.

Modelling conventions:
* Python/JSON scalar values are the inductive `Value` (strings, ints,
  floats, booleans, null).  Floats are embedded as exact rationals.
* A raw record is the triple of fields the code reads (`index`,
  `pri.store.size`, `pri`); a missing key is `none` (dict lookup raises
  `KeyError`, modelled as `Except.error`).
* A canonical / analysis record is `IndexRec`; the two fields the
  imbalance view writes (`balance_ratio`, `rec_shard_count`) are `Option`
  so a freshly normalized record (which lacks them) is distinguishable
  from an augmented one, mirroring Python dict mutation.
* Raising an exception is `Except.error ()`; printing functions are
  embedded as functions returning the values they print (and, for
  `print_least_balanced`, the post-mutation record list, since the code
  mutates `self.data` in place).
-/

namespace InfraLogging

/-- Scalar values as found in the JSON input (and inside records). -/
inductive Value where
  | VStr (s : String)
  | VInt (n : ℤ)
  | VFloat (q : ℚ)
  | VBool (b : Bool)
  | VNull
  deriving DecidableEq, Repr

open Value

/-- A raw record as the code reads it: the three keys accessed in
`refine_data` (`index`, `pri.store.size`, `pri`); `none` means the key is
absent from the dict. -/
structure RawRecord where
  index : Option Value
  priStoreSize : Option Value
  pri : Option Value
  deriving DecidableEq, Repr

/-- A record of `AnalyzeData.data`: the canonical fields produced by
`refine_data` plus the two fields `print_least_balanced` adds by in-place
mutation (absent, i.e. `none`, on a fresh canonical record). -/
structure IndexRec where
  index : Value
  size : ℚ
  shards : ℤ
  balance_ratio : Option ℤ := none
  rec_shard_count : Option ℤ := none
  deriving DecidableEq, Repr

/-- Floor of a rational, written so the kernel can evaluate it (`/` on `ℤ`
is Euclidean division, which is floor division for the positive
denominator).  `ratFloor_eq` below identifies it with `Int.floor`. -/
def ratFloor (q : ℚ) : ℤ :=
  q.num / (q.den : ℤ)

/-- Exact division of rationals, written through `Rat.divInt` so the
kernel can evaluate it.  `ratDiv_eq` below identifies it with `/`. -/
def ratDiv (a b : ℚ) : ℚ :=
  Rat.divInt (a.num * (b.den : ℤ)) ((a.den : ℤ) * b.num)

/-- Exact division of a rational by an integer, written through
`Rat.divInt` so the kernel can evaluate it.  `ratDivInt_eq` below
identifies it with `/`. -/
def ratDivInt (a : ℚ) (n : ℤ) : ℚ :=
  Rat.divInt a.num ((a.den : ℤ) * n)

/-- Python `int()` applied to a float: truncation toward zero. -/
def pyTrunc (q : ℚ) : ℤ :=
  if 0 ≤ q then ratFloor q else -ratFloor (-q)

/-- Value of a nonempty all-digit character list, `none` otherwise. -/
def digitsToNat (cs : List Char) : Option ℕ :=
  if cs = [] then none
  else
    cs.foldl
      (fun acc c =>
        match acc with
        | none => none
        | some n => if c.isDigit then some (n * 10 + (c.toNat - 48)) else none)
      (some 0)

/-- Python `int()` applied to a string: optional surrounding whitespace,
optional sign, then a nonempty digit run; anything else raises
`ValueError`.  In particular a string with a decimal point fails. -/
def pyIntOfString (s : String) : Except Unit ℤ :=
  let t := ((s.toList.dropWhile Char.isWhitespace).reverse.dropWhile
    Char.isWhitespace).reverse
  match t with
  | '+' :: rest =>
    match digitsToNat rest with
    | some n => .ok (n : ℤ)
    | none => .error ()
  | '-' :: rest =>
    match digitsToNat rest with
    | some n => .ok (-(n : ℤ))
    | none => .error ()
  | rest =>
    match digitsToNat rest with
    | some n => .ok (n : ℤ)
    | none => .error ()

/-- Python `int(v)` on a scalar value: identity on ints, truncation toward
zero on floats, 0/1 on booleans (`bool` is an `int` subclass), integer
parsing on strings, `TypeError` on `None`. -/
def pyInt : Value → Except Unit ℤ
  | VInt n => .ok n
  | VFloat q => .ok (pyTrunc q)
  | VBool b => .ok (if b then 1 else 0)
  | VStr s => pyIntOfString s
  | VNull => .error ()

/-- Round half to even at integer precision (Python `round`): the floor
when the fractional part is below one half, the ceiling when above, the
even neighbour on a tie.  The fractional part `q - ⌊q⌋` is written as
`Rat.divInt (q.num - f * q.den) q.den` so the kernel can evaluate it. -/
def roundHalfEven (q : ℚ) : ℤ :=
  let f := ratFloor q
  let r := Rat.divInt (q.num - f * (q.den : ℤ)) (q.den : ℤ)
  if r < mkRat 1 2 then f
  else if mkRat 1 2 < r then f + 1
  else if f % 2 = 0 then f else f + 1

/-- Multiplication of a rational by an integer, written through
`Rat.divInt` so the kernel can evaluate it (`ratMulInt_eq` below). -/
def ratMulInt (q : ℚ) (n : ℤ) : ℚ :=
  Rat.divInt (q.num * n) (q.den : ℤ)

/-- Python `round(x, 2)`: round half to even at two decimal places, i.e.
`roundHalfEven (x * 100) / 100` (see `round2_eq`). -/
def round2 (q : ℚ) : ℚ :=
  Rat.divInt (roundHalfEven (ratMulInt q 100)) 100

/-- Dict lookup `index[key]`: `KeyError` when the key is absent. -/
def getKey (v : Option Value) : Except Unit Value :=
  match v with
  | some x => .ok x
  | none => .error ()

/-- Body of the `try` block in `refine_data` (lines 128-132): build the
canonical record `{index, size, shards}` from one raw record, where
`size = round(int(raw["pri.store.size"]) / 1000^3, 2)` and
`shards = int(raw["pri"])`; any lookup or conversion failure is the
caught exception. -/
def refine_convert (r : RawRecord) : Except Unit IndexRec := do
  let iv ← getKey r.index
  let bv ← getKey r.priStoreSize
  let b ← pyInt bv
  let pv ← getKey r.pri
  let s ← pyInt pv
  pure ⟨iv, round2 (Rat.divInt b (1000 ^ 3)), s, none, none⟩

/-- Embedding of `refine_data` (lines 114-139): each raw record is
appended to `refined` when its conversion succeeds, otherwise to `errors`
(the list the function reports at line 137).  Returns both lists. -/
def refine_data : List RawRecord → List IndexRec × List RawRecord
  | [] => ([], [])
  | r :: rest =>
    let p := refine_data rest
    match refine_convert r with
    | .ok c => (c :: p.1, p.2)
    | .error _ => (p.1, r :: p.2)

/-- Insert `x` into a list sorted descending by `key`, after every element
whose key is strictly greater and before the first element whose key is
less than or equal (so an element inserted later, i.e. earlier in the
input of the fold below, precedes ties). -/
def insertByKey {α β : Type} [LinearOrder β] (key : α → β) (x : α) :
    List α → List α
  | [] => [x]
  | y :: ys => if key x < key y then y :: insertByKey key x ys else x :: y :: ys

/-- Stable descending sort by `key`: embedding of Python
`sorted(data, key=..., reverse=True)`, which is stable. -/
def sortByKeyDesc {α β : Type} [LinearOrder β] (key : α → β)
    (l : List α) : List α :=
  l.foldr (insertByKey key) []

/-- Embedding of `AnalyzeData.print_largest_indexes` (lines 16-24): the
list of records printed, namely the first 5 of the records sorted by
`size` descending (stable). -/
def print_largest_indexes (data : List IndexRec) : List IndexRec :=
  (sortByKeyDesc (fun r => r.size) data).take 5

/-- Embedding of `AnalyzeData.print_most_shards` (lines 26-34): the first
5 records sorted by `shards` descending (stable). -/
def print_most_shards (data : List IndexRec) : List IndexRec :=
  (sortByKeyDesc (fun r => r.shards) data).take 5

/-- Target shard size constant `SHARD_SZ_GB` (line 41). -/
def SHARD_SZ_GB : ℚ := 30

/-- Loop body of `print_least_balanced` (lines 42-49) in the non-raising
case: augment the record with `balance_ratio = int(size / shards)` and
`rec_shard_count` per the three-way branch on `size`. -/
def addDerivedT (r : IndexRec) : IndexRec :=
  { r with
    balance_ratio := some (pyTrunc (ratDivInt r.size r.shards))
    rec_shard_count :=
      some
        (if SHARD_SZ_GB ≤ r.size then pyTrunc (ratDivInt r.size 30)
         else if 0 < r.size ∧ r.size < SHARD_SZ_GB then 1
         else 0) }

/-- Loop body of `print_least_balanced` (lines 42-49): `size / shards`
raises `ZeroDivisionError` when `shards == 0`. -/
def addDerived (r : IndexRec) : Except Unit IndexRec :=
  if r.shards = 0 then .error () else .ok (addDerivedT r)

/-- The `for` loop of `print_least_balanced` over all records: stops with
the exception of the first record with `shards == 0`, otherwise returns
the augmented record list. -/
def derive_all : List IndexRec → Except Unit (List IndexRec)
  | [] => .ok []
  | r :: rest =>
    match addDerived r with
    | .error e => .error e
    | .ok r' =>
      match derive_all rest with
      | .error e => .error e
      | .ok rest' => .ok (r' :: rest')

/-- Embedding of `AnalyzeData.print_least_balanced` (lines 36-58).  On
success returns the post-mutation state of `self.data` (the code mutates
the shared records in place) and the list of records printed: the first 5
sorted by `balance_ratio` descending.  After the loop every record's
`balance_ratio` is set, so the `getD 0` default in the sort key is never
hit. -/
def print_least_balanced (data : List IndexRec) :
    Except Unit (List IndexRec × List IndexRec) :=
  match derive_all data with
  | .error e => .error e
  | .ok d =>
    .ok (d, (sortByKeyDesc (fun r => (r.balance_ratio.getD 0 : ℤ)) d).take 5)

/-- Canonical projection of a record: the three fields owned by the
Normalizer (`index`, `size_gb`, `shards`). -/
def core (r : IndexRec) : Value × ℚ × ℤ :=
  (r.index, r.size, r.shards)

/-! Bridge lemmas identifying the kernel-evaluable arithmetic helpers with
the standard field operations on `ℚ`. -/

lemma ratFloor_eq (q : ℚ) : ratFloor q = ⌊q⌋ :=
  Rat.floor_def.symm

lemma ratDiv_eq (a b : ℚ) : ratDiv a b = a / b :=
  (Rat.div_def' a b).symm

lemma ratDivInt_eq (a : ℚ) (n : ℤ) : ratDivInt a n = a / (n : ℚ) := by
  rw [ratDivInt, Rat.div_def']
  simp

lemma ratMulInt_eq (q : ℚ) (n : ℤ) : ratMulInt q n = q * (n : ℚ) := by
  rw [ratMulInt, Rat.divInt_eq_div]
  push_cast
  rw [mul_div_right_comm, Rat.num_div_den]

lemma pyTrunc_of_nonneg (q : ℚ) (h : 0 ≤ q) : pyTrunc q = ⌊q⌋ := by
  rw [pyTrunc, if_pos h, ratFloor_eq]

lemma pyTrunc_eq (q : ℚ) : pyTrunc q = if 0 ≤ q then ⌊q⌋ else ⌈q⌉ := by
  rw [pyTrunc]
  rcases le_or_lt 0 q with h | h
  · rw [if_pos h, if_pos h, ratFloor_eq]
  · rw [if_neg (not_le.2 h), if_neg (not_le.2 h), ratFloor_eq, Int.floor_neg,
      neg_neg]

lemma roundHalfEven_eq (q : ℚ) :
    roundHalfEven q =
      if q - (⌊q⌋ : ℚ) < 1 / 2 then ⌊q⌋
      else if 1 / 2 < q - (⌊q⌋ : ℚ) then ⌊q⌋ + 1
      else if ⌊q⌋ % 2 = 0 then ⌊q⌋ else ⌊q⌋ + 1 := by
  have hd : ((q.den : ℕ) : ℚ) ≠ 0 := by
    exact_mod_cast q.den_ne_zero
  have hr : Rat.divInt (q.num - ratFloor q * (q.den : ℤ)) (q.den : ℤ) =
      q - ((⌊q⌋ : ℤ) : ℚ) := by
    rw [Rat.divInt_eq_div, ratFloor_eq]
    push_cast
    rw [sub_div, Rat.num_div_den, mul_div_assoc, div_self hd, mul_one]
  have hm : (mkRat 1 2 : ℚ) = 1 / 2 := by
    rw [Rat.mkRat_eq_divInt, Rat.divInt_eq_div]
    norm_num
  rw [roundHalfEven, hr, hm, ratFloor_eq]

lemma round2_eq (q : ℚ) :
    round2 q = ((roundHalfEven (q * 100) : ℤ) : ℚ) / 100 := by
  rw [round2, ratMulInt_eq, Rat.divInt_eq_div]
  norm_num

/-! Lemmas about the stable descending insertion sort. -/

section Sorting

variable {α β : Type} [LinearOrder β] (key : α → β)

lemma sortByKeyDesc_nil : sortByKeyDesc key [] = [] := rfl

lemma sortByKeyDesc_cons (x : α) (l : List α) :
    sortByKeyDesc key (x :: l) = insertByKey key x (sortByKeyDesc key l) :=
  rfl

lemma insertByKey_perm (x : α) (l : List α) :
    (insertByKey key x l).Perm (x :: l) := by
  induction l with
  | nil => exact List.Perm.refl _
  | cons y ys ih =>
    rw [insertByKey]
    split
    · exact ((ih.cons y).trans (List.Perm.swap x y ys))
    · exact List.Perm.refl _

lemma sortByKeyDesc_perm (l : List α) : (sortByKeyDesc key l).Perm l := by
  induction l with
  | nil => exact List.Perm.refl _
  | cons x xs ih =>
    rw [sortByKeyDesc_cons]
    exact (insertByKey_perm key x _).trans (ih.cons x)

lemma length_sortByKeyDesc (l : List α) :
    (sortByKeyDesc key l).length = l.length :=
  (sortByKeyDesc_perm key l).length_eq

lemma mem_insertByKey {x a : α} {l : List α} :
    a ∈ insertByKey key x l ↔ a = x ∨ a ∈ l := by
  constructor
  · intro h
    have := (insertByKey_perm key x l).mem_iff.1 h
    simpa using this
  · intro h
    apply (insertByKey_perm key x l).mem_iff.2
    simpa using h

lemma sorted_insertByKey (x : α) (l : List α)
    (h : List.Sorted (fun a b => key b ≤ key a) l) :
    List.Sorted (fun a b => key b ≤ key a) (insertByKey key x l) := by
  induction l with
  | nil => simp [insertByKey]
  | cons y ys ih =>
    rw [List.sorted_cons] at h
    rw [insertByKey]
    split
    · next hlt =>
      rw [List.sorted_cons]
      refine ⟨?_, ih h.2⟩
      intro b hb
      rcases (mem_insertByKey key).1 hb with rfl | hb
      · exact le_of_lt hlt
      · exact h.1 b hb
    · next hge =>
      rw [List.sorted_cons]
      refine ⟨?_, List.sorted_cons.2 h⟩
      intro b hb
      rcases List.mem_cons.1 hb with rfl | hb
      · exact not_lt.1 hge
      · exact le_trans (h.1 b hb) (not_lt.1 hge)

lemma sorted_sortByKeyDesc (l : List α) :
    List.Sorted (fun a b => key b ≤ key a) (sortByKeyDesc key l) := by
  induction l with
  | nil => simp [sortByKeyDesc_nil]
  | cons x xs ih =>
    rw [sortByKeyDesc_cons]
    exact sorted_insertByKey key x _ ih

lemma filter_insertByKey (x : α) (l : List α) (k : β) :
    (insertByKey key x l).filter (fun a => key a = k) =
      if key x = k then x :: l.filter (fun a => key a = k)
      else l.filter (fun a => key a = k) := by
  induction l with
  | nil => by_cases hx : key x = k <;> simp [insertByKey, hx]
  | cons y ys ih =>
    rw [insertByKey]
    split
    · next hlt =>
      rw [List.filter_cons, List.filter_cons]
      by_cases hy : key y = k
      · by_cases hx : key x = k
        · exact absurd (hx.trans hy.symm) (ne_of_lt hlt)
        · simp [hx, hy, ih]
      · simp [hy, ih]
    · next hge =>
      rw [List.filter_cons]
      by_cases hx : key x = k
      · simp [hx]
      · simp [hx]

lemma filter_sortByKeyDesc (l : List α) (k : β) :
    (sortByKeyDesc key l).filter (fun a => key a = k) =
      l.filter (fun a => key a = k) := by
  induction l with
  | nil => rfl
  | cons x xs ih =>
    rw [sortByKeyDesc_cons, filter_insertByKey, List.filter_cons]
    by_cases hx : key x = k
    · simp [hx, ih]
    · simp [hx, ih]

lemma insertByKey_map (f : α → α) (hk : ∀ a, key (f a) = key a) (x : α)
    (l : List α) :
    insertByKey key (f x) (l.map f) = (insertByKey key x l).map f := by
  induction l with
  | nil => rfl
  | cons y ys ih =>
    rw [List.map_cons, insertByKey, insertByKey, hk, hk]
    split
    · rw [ih, List.map_cons]
    · rw [List.map_cons, List.map_cons]

lemma sortByKeyDesc_map (f : α → α) (hk : ∀ a, key (f a) = key a)
    (l : List α) :
    sortByKeyDesc key (l.map f) = (sortByKeyDesc key l).map f := by
  induction l with
  | nil => rfl
  | cons x xs ih =>
    rw [List.map_cons, sortByKeyDesc_cons, sortByKeyDesc_cons, ih,
      insertByKey_map key f hk]

end Sorting

/-! Lemmas about the imbalance loop and the normalizer. -/

lemma core_addDerivedT (r : IndexRec) : core (addDerivedT r) = core r :=
  rfl

lemma size_addDerivedT (r : IndexRec) : (addDerivedT r).size = r.size :=
  rfl

lemma shards_addDerivedT (r : IndexRec) : (addDerivedT r).shards = r.shards :=
  rfl

lemma derive_all_ok :
    ∀ {l l' : List IndexRec}, derive_all l = .ok l' →
      l' = l.map addDerivedT ∧ ∀ r ∈ l, r.shards ≠ 0 := by
  intro l
  induction l with
  | nil =>
    intro l' h
    simp only [derive_all, Except.ok.injEq] at h
    subst h
    simp
  | cons r rest ih =>
    intro l' h
    by_cases hz : r.shards = 0
    · rw [derive_all, addDerived, if_pos hz] at h
      cases h
    · rw [derive_all, addDerived, if_neg hz] at h
      rcases hrest : derive_all rest with e | rest'
      · rw [hrest] at h
        cases h
      · rw [hrest] at h
        simp only [Except.ok.injEq] at h
        obtain ⟨h1, h2⟩ := ih hrest
        subst h1
        refine ⟨h.symm, ?_⟩
        intro x hx
        rcases List.mem_cons.1 hx with rfl | hx
        · exact hz
        · exact h2 x hx

lemma refine_data_cons (r : RawRecord) (rest : List RawRecord) :
    refine_data (r :: rest) =
      match refine_convert r with
      | .ok c => (c :: (refine_data rest).1, (refine_data rest).2)
      | .error _ => ((refine_data rest).1, r :: (refine_data rest).2) := by
  rw [refine_data]

/-! Theorems for the specification's claims. -/

/-- C1: the spec claims a record with `shards == 0` never crashes the
least-balanced computation (it is merely excluded from the
`least_balanced` output while still ranking in the size and shard-count
views).  In the code, the size and shard-count views do rank such a
record, but `print_least_balanced` raises `ZeroDivisionError` at
`int(index['size'] / index['shards'])` (line 43), modelled as
`Except.error`. -/
theorem claim_C1_zero_shard_behavior :
    print_largest_indexes [⟨VStr "z", 5, 0, none, none⟩] =
        [⟨VStr "z", 5, 0, none, none⟩] ∧
    print_most_shards [⟨VStr "z", 5, 0, none, none⟩] =
        [⟨VStr "z", 5, 0, none, none⟩] ∧
    print_least_balanced [⟨VStr "z", 5, 0, none, none⟩] = .error () :=
  ⟨rfl, rfl, rfl⟩

/-- C2: the spec claims all three Analyzer operations are total over every
finite sequence of canonical records.  On the empty input all three do
return empty outputs without error, but `print_least_balanced` raises on
any record set containing a record with `shards = 0` (division by zero at
line 43), so the totality claim fails on the code. -/
theorem claim_C2_analyzer_totality :
    print_largest_indexes [] = [] ∧
    print_most_shards [] = [] ∧
    print_least_balanced [] = .ok ([], []) ∧
    print_least_balanced [⟨VStr "w", 7, 0, none, none⟩] = .error () :=
  ⟨rfl, rfl, rfl, rfl⟩

/-- C4: for every call, every input record is routed to exactly one of the
two output sequences of the normalizer (converted records and error
records), so the lengths add up to the input length. -/
theorem claim_C4_conservation (data : List RawRecord) :
    (refine_data data).1.length + (refine_data data).2.length =
      data.length := by
  induction data with
  | nil => rfl
  | cons r rest ih =>
    rw [refine_data_cons]
    rcases h : refine_convert r with e | c
    · simp only [List.length_cons]
      omega
    · simp only [List.length_cons]
      omega

/-- C9: the normalizer never raises for a malformed individual record: it
is a total function on record lists, each record whose conversion fails is
routed to the error output, each record whose conversion succeeds
contributes exactly its converted form to the valid output, and
processing continues past failures (the outputs are the filtered /
filter-mapped input). -/
theorem claim_C9_per_record_recovery (data : List RawRecord) :
    (refine_data data).1 =
      data.filterMap (fun r => (refine_convert r).toOption) ∧
    (refine_data data).2 =
      data.filter (fun r => ((refine_convert r).toOption).isNone) := by
  induction data with
  | nil => exact ⟨rfl, rfl⟩
  | cons r rest ih =>
    rw [refine_data_cons]
    rcases h : refine_convert r with e | c
    · refine ⟨?_, ?_⟩
      · simp [List.filterMap_cons, h, Except.toOption, ih.1]
      · simp [List.filter_cons, h, Except.toOption, ih.2]
    · refine ⟨?_, ?_⟩
      · simp [List.filterMap_cons, h, Except.toOption, ih.1]
      · simp [List.filter_cons, h, Except.toOption, ih.2]

/-- C3 counterexample: the claim that running the imbalance view leaves
every canonical record's fields unchanged is false: `print_least_balanced`
mutates the shared records in place, adding `balance_ratio` and
`rec_shard_count`, so the record set after the call differs from the
input record set. -/
theorem claim_C3_counterexample :
    print_least_balanced [⟨VStr "a", 90, 3, none, none⟩] =
      .ok ([⟨VStr "a", 90, 3, some 30, some 3⟩],
        [⟨VStr "a", 90, 3, some 30, some 3⟩]) ∧
    (⟨VStr "a", 90, 3, some 30, some 3⟩ : IndexRec) ≠
      (⟨VStr "a", 90, 3, none, none⟩ : IndexRec) :=
  ⟨rfl, by decide⟩

/-- C3 (amended): `print_least_balanced` augments the shared records in
place with `balance_ratio` and `rec_shard_count`, but never alters
`index`, `size_gb` or `shards`; the size and shard-count views read only
those three fields, so their ranked outputs, projected to the canonical
fields, are unaffected by the mutation. -/
theorem claim_C3_frame (data st out : List IndexRec)
    (h : print_least_balanced data = .ok (st, out)) :
    st = data.map addDerivedT ∧
    st.map core = data.map core ∧
    (print_largest_indexes st).map core =
      (print_largest_indexes data).map core ∧
    (print_most_shards st).map core =
      (print_most_shards data).map core := by
  rw [print_least_balanced] at h
  rcases hd : derive_all data with e | d
  · rw [hd] at h
    cases h
  · rw [hd] at h
    simp only [Except.ok.injEq, Prod.mk.injEq] at h
    obtain ⟨hst, -⟩ := h
    obtain ⟨h1, -⟩ := derive_all_ok hd
    subst hst
    subst h1
    have hcore : core ∘ addDerivedT = core := funext core_addDerivedT
    refine ⟨rfl, ?_, ?_, ?_⟩
    · rw [List.map_map, hcore]
    · rw [print_largest_indexes, print_largest_indexes,
        sortByKeyDesc_map (fun r => r.size) addDerivedT size_addDerivedT,
        ← List.map_take, List.map_map, hcore]
    · rw [print_most_shards, print_most_shards,
        sortByKeyDesc_map (fun r => r.shards) addDerivedT shards_addDerivedT,
        ← List.map_take, List.map_map, hcore]

/-- C3 witness: the frame theorem applied to the concrete one-record set
with `size_gb = 90`, `shards = 3`. -/
theorem claim_C3_witness :
    ([⟨VStr "a", 90, 3, some 30, some 3⟩] : List IndexRec) =
      ([⟨VStr "a", 90, 3, none, none⟩] : List IndexRec).map addDerivedT ∧
    ([⟨VStr "a", 90, 3, some 30, some 3⟩] : List IndexRec).map core =
      ([⟨VStr "a", 90, 3, none, none⟩] : List IndexRec).map core ∧
    (print_largest_indexes [⟨VStr "a", 90, 3, some 30, some 3⟩]).map core =
      (print_largest_indexes [⟨VStr "a", 90, 3, none, none⟩]).map core ∧
    (print_most_shards [⟨VStr "a", 90, 3, some 30, some 3⟩]).map core =
      (print_most_shards [⟨VStr "a", 90, 3, none, none⟩]).map core :=
  claim_C3_frame [⟨VStr "a", 90, 3, none, none⟩]
    [⟨VStr "a", 90, 3, some 30, some 3⟩]
    [⟨VStr "a", 90, 3, some 30, some 3⟩] rfl

/-- C8: the size view prints the first 5 records of a stable descending
sort by `size_gb`: the sorted list is sorted descending by `size`, is a
permutation of the input, and for every size value the records of that
size appear in input order (stability); the output is the 5-element
prefix, of length `min 5 (length data)` (all records when fewer than 5,
never padding). -/
theorem claim_C8_top_by_size (data : List IndexRec) (q : ℚ) :
    print_largest_indexes data =
      (sortByKeyDesc (fun r => r.size) data).take 5 ∧
    List.Sorted (fun a b => b.size ≤ a.size)
      (sortByKeyDesc (fun r => r.size) data) ∧
    (sortByKeyDesc (fun r => r.size) data).Perm data ∧
    (sortByKeyDesc (fun r => r.size) data).filter (fun r => r.size = q) =
      data.filter (fun r => r.size = q) ∧
    (print_largest_indexes data).length = min 5 data.length := by
  refine ⟨rfl, ?_, ?_, ?_, ?_⟩
  · exact sorted_sortByKeyDesc (fun r => r.size) data
  · exact sortByKeyDesc_perm (fun r => r.size) data
  · exact filter_sortByKeyDesc (fun r => r.size) data q
  · rw [print_largest_indexes, List.length_take,
      length_sortByKeyDesc (fun r => r.size) data]

lemma pyInt_float (q : ℚ) : pyInt (VFloat q) = .ok (pyTrunc q) :=
  rfl

lemma divInt_pow_eq (b : ℤ) :
    Rat.divInt b (1000 ^ 3) = (b : ℚ) / 1000 ^ 3 := by
  rw [Rat.divInt_eq_div]
  norm_num

/-- C5 counterexample: the claim says the index name is coerced to a
non-empty string, but the code copies the index field verbatim with no
coercion or emptiness check: a raw record whose index field is the empty
string is converted successfully and lands in the valid output with the
empty string as its index. -/
theorem claim_C5_counterexample :
    refine_data
        [⟨some (VStr ""), some (VStr "1000000000"), some (VStr "2")⟩] =
      ([⟨VStr "", 1, 2, none, none⟩], []) := by
  decide

/-- C5 (amended): for every raw record whose byte-size field converts to
the integer `B` and whose shard-count field converts to the integer `S`,
the normalizer produces the canonical record with
`size_gb = round(B / 10^9, 2)` and `shards = S`, and with the index field
copied as-is (no string coercion and no non-emptiness check; only a
missing index field routes the record to the invalid output). -/
theorem claim_C5_round_trip (iv bv sv : Value) (b s : ℤ)
    (hb : pyInt bv = .ok b) (hs : pyInt sv = .ok s) :
    refine_convert ⟨some iv, some bv, some sv⟩ =
      .ok ⟨iv, round2 ((b : ℚ) / 1000 ^ 3), s, none, none⟩ := by
  simp only [refine_convert, getKey, Bind.bind, Except.bind, hb, hs,
    divInt_pow_eq, Pure.pure, Except.pure]

/-- C5 witness: the round-trip theorem at the concrete raw record with
byte size 90000000000 and 3 shards. -/
theorem claim_C5_witness :
    refine_convert
        ⟨some (VStr "idx"), some (VStr "90000000000"), some (VInt 3)⟩ =
      .ok ⟨VStr "idx", round2 ((90000000000 : ℚ) / 1000 ^ 3), 3,
        none, none⟩ :=
  claim_C5_round_trip (VStr "idx") (VStr "90000000000") (VInt 3)
    90000000000 3 rfl rfl

/-- C6: the recommended shard count computed by the imbalance view is 0
for `size_gb = 0`, is 1 for `0 < size_gb < 30`, is `floor(size_gb / 30)`
for `size_gb >= 30`, and is exactly `k` when `size_gb` is the exact
multiple `30 * k` of the target shard size. -/
theorem claim_C6_recommended_shards (r : IndexRec) :
    (r.size = 0 → (addDerivedT r).rec_shard_count = some 0) ∧
    (0 < r.size → r.size < 30 → (addDerivedT r).rec_shard_count = some 1) ∧
    (30 ≤ r.size → (addDerivedT r).rec_shard_count = some ⌊r.size / 30⌋) ∧
    (∀ k : ℕ, r.size = ((30 * k : ℕ) : ℚ) →
      (addDerivedT r).rec_shard_count = some (k : ℤ)) := by
  have hrec : (addDerivedT r).rec_shard_count =
      some (if SHARD_SZ_GB ≤ r.size then pyTrunc (ratDivInt r.size 30)
        else if 0 < r.size ∧ r.size < SHARD_SZ_GB then 1 else 0) := rfl
  have h30 : SHARD_SZ_GB = (30 : ℚ) := rfl
  have hdiv : 30 ≤ r.size →
      (addDerivedT r).rec_shard_count = some ⌊r.size / 30⌋ := by
    intro h3
    rw [hrec, h30, if_pos h3, ratDivInt_eq,
      pyTrunc_of_nonneg _ (div_nonneg (le_trans (by norm_num) h3)
        (by norm_num))]
    norm_num
  refine ⟨?_, ?_, hdiv, ?_⟩
  · intro h0
    rw [hrec, h30, h0]
    norm_num
  · intro h1 h2
    rw [hrec, h30, if_neg (not_le.2 h2), if_pos ⟨h1, h2⟩]
  · intro k hk
    rcases Nat.eq_zero_or_pos k with rfl | hkpos
    · have h0 : r.size = 0 := by
        rw [hk]
        norm_num
      rw [hrec, h30, h0]
      norm_num
    · have hk1 : (1 : ℚ) ≤ (k : ℚ) := by
        exact_mod_cast hkpos
      have h3 : (30 : ℚ) ≤ r.size := by
        rw [hk]
        push_cast
        nlinarith
      rw [hdiv h3]
      congr 1
      rw [hk]
      push_cast
      rw [mul_comm, mul_div_assoc, div_self (by norm_num : (30 : ℚ) ≠ 0),
        mul_one]
      exact Int.floor_natCast k

/-- C6 witness: a record with `size_gb = 90` (the exact multiple `30 * 3`)
gets recommended shard count exactly 3. -/
theorem claim_C6_witness :
    (addDerivedT ⟨VStr "w", 90, 3, none, none⟩).rec_shard_count =
      some ((3 : ℕ) : ℤ) :=
  (claim_C6_recommended_shards ⟨VStr "w", 90, 3, none, none⟩).2.2.2 3
    (by decide)

/-- C7: for every record with positive shard count and non-negative size,
the imbalance view derives `balance_ratio = floor(size_gb / shards)`; in
particular the record set with `(size_gb, shards) = (90, 3)` and
`(10, 5)` gets balance ratios 30 and 2 (and recommended shard counts 3
and 1). -/
theorem claim_C7_balance_ratio :
    (∀ r : IndexRec, 0 < r.shards → 0 ≤ r.size →
      (addDerivedT r).balance_ratio = some ⌊r.size / (r.shards : ℚ)⌋) ∧
    print_least_balanced
        [⟨VStr "big", 90, 3, none, none⟩,
          ⟨VStr "small", 10, 5, none, none⟩] =
      .ok ([⟨VStr "big", 90, 3, some 30, some 3⟩,
          ⟨VStr "small", 10, 5, some 2, some 1⟩],
        [⟨VStr "big", 90, 3, some 30, some 3⟩,
          ⟨VStr "small", 10, 5, some 2, some 1⟩]) := by
  constructor
  · intro r hs h0
    have hb : (addDerivedT r).balance_ratio =
        some (pyTrunc (ratDivInt r.size r.shards)) := rfl
    have hc : (0 : ℚ) ≤ (r.shards : ℚ) := by
      exact_mod_cast hs.le
    rw [hb, ratDivInt_eq, pyTrunc_of_nonneg _ (div_nonneg h0 hc)]
  · rfl

/-- C7 witness: the balance-ratio theorem at the concrete record with
`size_gb = 60`, `shards = 7`. -/
theorem claim_C7_witness :
    (addDerivedT ⟨VStr "w", 60, 7, none, none⟩).balance_ratio =
      some ⌊(60 : ℚ) / ((7 : ℤ) : ℚ)⌋ :=
  claim_C7_balance_ratio.1 ⟨VStr "w", 60, 7, none, none⟩ (by decide)
    (by decide)

/-- C10 counterexample: the claim says a fractional numeric byte-size
value is routed to the invalid output, but a raw record whose byte-size
field is the float 1500000000.5 is accepted: Python `int()` truncates the
float to 1500000000 and the record lands in the valid output with
`size_gb = 1.5`. -/
theorem claim_C10_counterexample :
    refine_data
        [⟨some (VStr "idx"), some (VFloat (mkRat 3000000001 2)),
          some (VInt 2)⟩] =
      ([⟨VStr "idx", mkRat 3 2, 2, none, none⟩], []) := by
  decide

/-- C10 (amended): a byte-size field holding a non-integer numeric string
(one that Python `int()` cannot parse) routes the whole record to the
invalid output, but a byte-size field holding a fractional float value is
accepted: integer coercion truncates it toward zero before the division
by 10^9. -/
theorem claim_C10_size_parsing :
    (∀ (iv pv : Option Value) (s : String),
      pyIntOfString s = .error () →
      refine_convert ⟨iv, some (VStr s), pv⟩ = .error ()) ∧
    (∀ (iv pv : Value) (q : ℚ) (s : ℤ),
      pyInt pv = .ok s →
      refine_convert ⟨some iv, some (VFloat q), some pv⟩ =
        .ok ⟨iv, round2 (((pyTrunc q : ℤ) : ℚ) / 1000 ^ 3), s,
          none, none⟩) := by
  constructor
  · intro iv pv str hstr
    rcases iv with _ | v
    · rfl
    · simp only [refine_convert, getKey, Bind.bind, Except.bind, pyInt,
        hstr]
  · intro iv pv q s hs
    simp only [refine_convert, getKey, Bind.bind, Except.bind, pyInt_float,
      hs, divInt_pow_eq, Pure.pure, Except.pure]

/-- C10 witness: the parsing theorem applied to the non-integer numeric
string "1500000000.5" (routed to invalid) and to the float 1500000000.5
(accepted, truncated). -/
theorem claim_C10_witness :
    refine_convert
        ⟨some (VStr "i"), some (VStr "1500000000.5"), some (VInt 2)⟩ =
      .error () ∧
    refine_convert
        ⟨some (VStr "i"), some (VFloat (mkRat 3000000001 2)),
          some (VInt 2)⟩ =
      .ok ⟨VStr "i",
        round2 (((pyTrunc (mkRat 3000000001 2) : ℤ) : ℚ) / 1000 ^ 3), 2,
        none, none⟩ :=
  ⟨claim_C10_size_parsing.1 (some (VStr "i")) (some (VInt 2))
      "1500000000.5" rfl,
    claim_C10_size_parsing.2 (VStr "i") (VInt 2) (mkRat 3000000001 2) 2
      rfl⟩

end InfraLogging
